import Mathlib

/-!
A verification development for the FastDFS Rust client
(`rust_client/src`).  The Rust modules `errors.rs`, `protocol.rs`,
`operations.rs`, `connection.rs` and `client.rs` are shallowly embedded:
byte buffers become `List Nat` (each entry a byte value), Rust `&str`
values become Lean `String`, fallible functions return `Except`, and a
Rust panic is modelled as `Option.none`.  Stateful components
(connection pool, client closed flag) become explicit state-passing
functions.
-/

namespace FastDFS

/-- The `FastDFSError` enum from `errors.rs`.  The payload of the
`Io`/`Utf8`/`Network` variants in Rust carries an OS error value that no
claim inspects; here those payloads are reduced to the strings the
client itself supplies. -/
inductive FastDFSError where
  | clientClosed
  | fileNotFound (s : String)
  | noStorageServer
  | connectionTimeout (s : String)
  | networkTimeout (s : String)
  | invalidFileId (s : String)
  | invalidResponse (s : String)
  | storageServerOffline (s : String)
  | trackerServerOffline (s : String)
  | insufficientSpace
  | fileAlreadyExists (s : String)
  | invalidMetadata (s : String)
  | operationNotSupported (s : String)
  | invalidArgument (s : String)
  | protocol (code : Nat) (message : String)
  | network (operation : String) (addr : String)
  | io
  | utf8
deriving DecidableEq, Repr

/-- UTF-8 encoding of a single character.  This is how Rust's
`str::as_bytes` lays out each `char`. -/
def utf8Bytes (c : Char) : List Nat :=
  let v := c.toNat
  if v < 0x80 then [v]
  else if v < 0x800 then [0xC0 + v / 64, 0x80 + v % 64]
  else if v < 0x10000 then
    [0xE0 + v / 4096, 0x80 + v / 64 % 64, 0x80 + v % 64]
  else
    [0xF0 + v / 262144, 0x80 + v / 4096 % 64, 0x80 + v / 64 % 64,
      0x80 + v % 64]

/-- UTF-8 byte sequence of a character list. -/
def listBytes (l : List Char) : List Nat := l.flatMap utf8Bytes

/-- Embeds `str::as_bytes`: the UTF-8 bytes of a string.  `s.len()` in Rust is
`(strBytes s).length`. -/
def strBytes (s : String) : List Nat := listBytes s.data

/-- U+FFFD, the replacement character emitted by lossy decoding. -/
def replacementChar : Char := Char.ofNat 0xFFFD

/-- Decodes one UTF-8 scalar starting at byte `b0`, with `rest` the
following bytes.  Returns the character and how many bytes of `rest`
were consumed.  Invalid sequences (truncated, overlong, surrogate,
out-of-range) yield the replacement character, matching
`String::from_utf8_lossy`; on an invalid sequence only the leading byte
is consumed (a simplification of lossy decoding's resynchronisation
that no theorem below depends on, since they only decode valid
UTF-8). -/
def decode1 (b0 : Nat) (rest : List Nat) : Char × Nat :=
  if b0 < 0x80 then (Char.ofNat b0, 0)
  else if b0 < 0xC0 then (replacementChar, 0)
  else if b0 < 0xE0 then
    match rest with
    | b1 :: _ =>
      if 0x80 ≤ b1 ∧ b1 < 0xC0 then
        let v := (b0 - 0xC0) * 64 + (b1 - 0x80)
        if 0x80 ≤ v then (Char.ofNat v, 1) else (replacementChar, 0)
      else (replacementChar, 0)
    | _ => (replacementChar, 0)
  else if b0 < 0xF0 then
    match rest with
    | b1 :: b2 :: _ =>
      if (0x80 ≤ b1 ∧ b1 < 0xC0) ∧ (0x80 ≤ b2 ∧ b2 < 0xC0) then
        let v := (b0 - 0xE0) * 4096 + (b1 - 0x80) * 64 + (b2 - 0x80)
        if 0x800 ≤ v ∧ (v < 0xD800 ∨ 0xDFFF < v) then (Char.ofNat v, 2)
        else (replacementChar, 0)
      else (replacementChar, 0)
    | _ => (replacementChar, 0)
  else if b0 < 0xF8 then
    match rest with
    | b1 :: b2 :: b3 :: _ =>
      if (0x80 ≤ b1 ∧ b1 < 0xC0) ∧ (0x80 ≤ b2 ∧ b2 < 0xC0) ∧
          (0x80 ≤ b3 ∧ b3 < 0xC0) then
        let v := (b0 - 0xF0) * 262144 + (b1 - 0x80) * 4096 +
          (b2 - 0x80) * 64 + (b3 - 0x80)
        if 0x10000 ≤ v ∧ v < 0x110000 then (Char.ofNat v, 3)
        else (replacementChar, 0)
      else (replacementChar, 0)
    | _ => (replacementChar, 0)
  else (replacementChar, 0)

/-- Embeds `String::from_utf8_lossy` at the character-list level, with the
byte budget made explicit so the recursion is structural (each step
consumes at least one byte, so a budget of `l.length` suffices). -/
def lossyDecodeAux : Nat → List Nat → List Char
  | _, [] => []
  | 0, _ :: _ => []
  | fuel + 1, b :: rest =>
    let p := decode1 b rest
    p.1 :: lossyDecodeAux fuel (rest.drop p.2)

/-- Embeds `String::from_utf8_lossy` at the character-list level. -/
def lossyDecode (l : List Nat) : List Char := lossyDecodeAux l.length l

/-- Embeds `String::from_utf8_lossy` producing a `String`. -/
def bytesToStr (l : List Nat) : String := ⟨lossyDecode l⟩

/-- The byte budget of `lossyDecodeAux` is irrelevant once it covers the
input length. -/
theorem lossyDecodeAux_fuel (f1 : Nat) :
    ∀ (f2 : Nat) (l : List Nat), l.length ≤ f1 → l.length ≤ f2 →
      lossyDecodeAux f1 l = lossyDecodeAux f2 l := by
  induction f1 with
  | zero =>
    intro f2 l h1 h2
    have : l = [] := List.eq_nil_of_length_eq_zero (Nat.le_zero.mp h1)
    subst this
    cases f2 <;> rfl
  | succ f ih =>
    intro f2 l h1 h2
    cases l with
    | nil => cases f2 <;> rfl
    | cons b rest =>
      cases f2 with
      | zero => simp at h2
      | succ f2 =>
        simp only [lossyDecodeAux]
        have hdrop : (rest.drop (decode1 b rest).2).length ≤ rest.length := by
          simp only [List.length_drop]
          omega
        simp only [List.length_cons] at h1 h2
        rw [ih f2 (rest.drop (decode1 b rest).2) (by omega) (by omega)]

/-- Unfolding equation for `lossyDecode` on a non-empty list. -/
theorem lossyDecode_cons (b : Nat) (rest : List Nat) :
    lossyDecode (b :: rest) =
      (decode1 b rest).1 :: lossyDecode (rest.drop (decode1 b rest).2) := by
  show lossyDecodeAux (rest.length + 1) (b :: rest) = _
  simp only [lossyDecodeAux, lossyDecode]
  have hdrop : (rest.drop (decode1 b rest).2).length ≤ rest.length := by
    simp only [List.length_drop]
    omega
  rw [lossyDecodeAux_fuel rest.length (rest.drop (decode1 b rest).2).length
    (rest.drop (decode1 b rest).2) hdrop (Nat.le_refl _)]

/-- Decoding the UTF-8 bytes of one character followed by anything
consumes exactly that character. -/
theorem lossyDecode_utf8Bytes (c : Char) (rest : List Nat) :
    lossyDecode (utf8Bytes c ++ rest) = c :: lossyDecode rest := by
  have hval : c.toNat < 0xD800 ∨ (0xDFFF < c.toNat ∧ c.toNat < 0x110000) :=
    c.valid
  have hofn : Char.ofNat c.toNat = c := Char.ofNat_toNat c
  unfold utf8Bytes
  by_cases h1 : c.toNat < 0x80
  · simp only [h1, if_true, List.cons_append, List.nil_append]
    rw [lossyDecode_cons]
    have : decode1 c.toNat rest = (Char.ofNat c.toNat, 0) := by
      unfold decode1
      simp [h1]
    rw [this, hofn]
    simp
  · by_cases h2 : c.toNat < 0x800
    · simp only [h1, h2, if_false, if_true, List.cons_append,
        List.nil_append]
      rw [lossyDecode_cons]
      have hd : decode1 (0xC0 + c.toNat / 64)
          ((0x80 + c.toNat % 64) :: rest) = (Char.ofNat c.toNat, 1) := by
        unfold decode1
        have hb0a : ¬ (0xC0 + c.toNat / 64 < 0x80) := by omega
        have hb0b : ¬ (0xC0 + c.toNat / 64 < 0xC0) := by omega
        have hb0c : 0xC0 + c.toNat / 64 < 0xE0 := by omega
        have hb1 : 0x80 ≤ 0x80 + c.toNat % 64 ∧
            0x80 + c.toNat % 64 < 0xC0 := by omega
        simp only [hb0a, hb0b, hb0c, if_false, if_true, hb1, and_true]
        have hv : (0xC0 + c.toNat / 64 - 0xC0) * 64 +
            (0x80 + c.toNat % 64 - 0x80) = c.toNat := by omega
        rw [hv]
        rw [if_pos (by omega)]
      rw [hd, hofn]
      simp
    · by_cases h3 : c.toNat < 0x10000
      · simp only [h1, h2, h3, if_false, if_true, List.cons_append,
          List.nil_append]
        rw [lossyDecode_cons]
        have hd : decode1 (0xE0 + c.toNat / 4096)
            ((0x80 + c.toNat / 64 % 64) :: (0x80 + c.toNat % 64) :: rest) =
            (Char.ofNat c.toNat, 2) := by
          unfold decode1
          have hb0a : ¬ (0xE0 + c.toNat / 4096 < 0x80) := by omega
          have hb0b : ¬ (0xE0 + c.toNat / 4096 < 0xC0) := by omega
          have hb0c : ¬ (0xE0 + c.toNat / 4096 < 0xE0) := by omega
          have hb0d : 0xE0 + c.toNat / 4096 < 0xF0 := by omega
          simp only [hb0a, hb0b, hb0c, hb0d, if_false, if_true]
          rw [if_pos (by omega)]
          have hv : (0xE0 + c.toNat / 4096 - 0xE0) * 4096 +
              (0x80 + c.toNat / 64 % 64 - 0x80) * 64 +
              (0x80 + c.toNat % 64 - 0x80) = c.toNat := by omega
          rw [hv]
          rw [if_pos (by omega)]
        rw [hd, hofn]
        simp
      · simp only [h1, h2, h3, if_false, List.cons_append,
          List.nil_append]
        rw [lossyDecode_cons]
        have hd : decode1 (0xF0 + c.toNat / 262144)
            ((0x80 + c.toNat / 4096 % 64) :: (0x80 + c.toNat / 64 % 64) ::
              (0x80 + c.toNat % 64) :: rest) = (Char.ofNat c.toNat, 3) := by
          unfold decode1
          have hb0a : ¬ (0xF0 + c.toNat / 262144 < 0x80) := by omega
          have hb0b : ¬ (0xF0 + c.toNat / 262144 < 0xC0) := by omega
          have hb0c : ¬ (0xF0 + c.toNat / 262144 < 0xE0) := by omega
          have hb0d : ¬ (0xF0 + c.toNat / 262144 < 0xF0) := by omega
          have hb0e : 0xF0 + c.toNat / 262144 < 0xF8 := by omega
          simp only [hb0a, hb0b, hb0c, hb0d, hb0e, if_false, if_true]
          rw [if_pos (by omega)]
          have hv : (0xF0 + c.toNat / 262144 - 0xF0) * 262144 +
              (0x80 + c.toNat / 4096 % 64 - 0x80) * 4096 +
              (0x80 + c.toNat / 64 % 64 - 0x80) * 64 +
              (0x80 + c.toNat % 64 - 0x80) = c.toNat := by omega
          rw [hv]
          rw [if_pos (by omega)]
        rw [hd, hofn]
        simp

/-- Lossy decoding inverts UTF-8 encoding on character lists. -/
theorem lossyDecode_listBytes (l : List Char) :
    lossyDecode (listBytes l) = l := by
  induction l with
  | nil => rfl
  | cons c cs ih =>
    have : listBytes (c :: cs) = utf8Bytes c ++ listBytes cs := by
      simp [listBytes]
    rw [this, lossyDecode_utf8Bytes, ih]

/-- Lossy decoding inverts UTF-8 encoding on strings. -/
theorem bytesToStr_strBytes (s : String) : bytesToStr (strBytes s) = s := by
  cases s with
  | mk data =>
    simp only [bytesToStr, strBytes]
    rw [lossyDecode_listBytes]

/-- Embeds `pad_string` from `protocol.rs`: copies at most `length` bytes of
`s` and resizes the buffer to `length`, padding with zero bytes. -/
def padString (s : String) (length : Nat) : List Nat :=
  (strBytes s).take length ++
    List.replicate (length - (strBytes s).length) 0

/-- The trailing-zero trim inside `unpad_string`: keep bytes up to (and
including) the last non-zero byte (`rposition(|&b| b != 0)`). -/
def dropTrailingZeros (l : List Nat) : List Nat :=
  (l.reverse.dropWhile (fun b => b == 0)).reverse

/-- Embeds `unpad_string` from `protocol.rs`: trims trailing zero bytes and
decodes the rest with `from_utf8_lossy`. -/
def unpadString (data : List Nat) : String :=
  bytesToStr (dropTrailingZeros data)

/-- Dropping while `p` skips a block of zeros when `p 0` holds. -/
theorem dropWhile_replicate_zero_append (p : Nat → Bool) (k : Nat)
    (t : List Nat) (hp : p 0 = true) :
    (List.replicate k 0 ++ t).dropWhile p = t.dropWhile p := by
  induction k with
  | zero => rfl
  | succ k ih => simp [List.replicate_succ, List.dropWhile_cons, hp, ih]

/-- Appended trailing zeros are removed by the trim. -/
theorem dropTrailingZeros_append_replicate (l : List Nat) (k : Nat) :
    dropTrailingZeros (l ++ List.replicate k 0) = dropTrailingZeros l := by
  unfold dropTrailingZeros
  rw [List.reverse_append, List.reverse_replicate,
    dropWhile_replicate_zero_append _ _ _ rfl]

/-- The trim is the identity when the last byte is non-zero. -/
theorem dropTrailingZeros_of_getLast (l : List Nat)
    (h : l.getLast? ≠ some 0) : dropTrailingZeros l = l := by
  unfold dropTrailingZeros
  cases hr : l.reverse with
  | nil =>
    have : l = [] := by
      have := congrArg List.reverse hr
      simpa using this
    subst this
    rfl
  | cons b t =>
    have hb : l.getLast? = some b := by
      rw [← List.head?_reverse, hr]
      rfl
    have hbne : b ≠ 0 := by
      intro he
      exact h (he ▸ hb)
    rw [List.dropWhile_cons]
    simp only [beq_iff_eq, hbne, if_false]
    have h2 := congrArg List.reverse hr
    simp only [List.reverse_reverse] at h2
    exact h2.symm

/-- C6 (amended): for every string `s` whose UTF-8 bytes do not end in
a zero byte and every `n` with `len(s) ≤ n`, `pad_string(s, n)` has
length exactly `n` and `unpad_string(pad_string(s, n)) = s`. -/
theorem padString_unpadString_spec (s : String) (n : Nat)
    (hlen : (strBytes s).length ≤ n)
    (hlast : (strBytes s).getLast? ≠ some 0) :
    (padString s n).length = n ∧ unpadString (padString s n) = s := by
  have hpad : padString s n =
      strBytes s ++ List.replicate (n - (strBytes s).length) 0 := by
    unfold padString
    rw [List.take_of_length_le hlen]
  constructor
  · rw [hpad]
    simp only [List.length_append, List.length_replicate]
    omega
  · rw [hpad]
    unfold unpadString
    rw [dropTrailingZeros_append_replicate, dropTrailingZeros_of_getLast _
      hlast, bytesToStr_strBytes]

/-- Witness for C6 at `s = "test"`, `n = 16`. -/
theorem padString_unpadString_spec_witness :
    (padString ("test") 16).length = 16 ∧
    unpadString (padString ("test") 16) = ("test") :=
  padString_unpadString_spec ("test") 16 (by decide) (by decide)

/-- C6 as literally stated is false: a string ending in a NUL character
is not recovered by `unpad_string` after `pad_string`. -/
theorem padString_unpadString_counterexample :
    (strBytes ("\x00")).length ≤ 1 ∧
    unpadString (padString ("\x00") 1) = ("") ∧
    ("" : String) ≠ ("\x00") := by
  refine ⟨by decide, ?_, by decide⟩
  decide

/-- Embeds `FDFS_GROUP_NAME_MAX_LEN` from `types.rs`. -/
def FDFS_GROUP_NAME_MAX_LEN : Nat := 16

/-- Embeds `splitn(2, sep)` on a character list: split at the first occurrence
of `sep`, or `none` when `sep` does not occur (the `parts.len() != 2`
case in `split_file_id`). -/
def splitFirst (sep : Char) : List Char → Option (List Char × List Char)
  | [] => none
  | c :: cs =>
    if c = sep then some ([], cs)
    else
      match splitFirst sep cs with
      | none => none
      | some (a, b) => some (c :: a, b)

/-- Embeds `split_file_id` from `protocol.rs`.  Lengths are byte lengths, as in
Rust's `str::len`. -/
def splitFileId (fileId : String) : Except FastDFSError (String × String) :=
  if fileId = ("") then .error (.invalidFileId fileId)
  else
    match splitFirst '/' fileId.data with
    | none => .error (.invalidFileId fileId)
    | some (g, r) =>
      if g = [] ∨ FDFS_GROUP_NAME_MAX_LEN < (listBytes g).length then
        .error (.invalidFileId fileId)
      else if r = [] then .error (.invalidFileId fileId)
      else .ok (⟨g⟩, ⟨r⟩)

/-- Embeds `join_file_id` from `protocol.rs`. -/
def joinFileId (groupName remoteFilename : String) : String :=
  groupName ++ ("/") ++ remoteFilename

/-- Lemma: `splitFirst` returns `none` exactly when the separator is absent. -/
theorem splitFirst_eq_none_iff (sep : Char) (l : List Char) :
    splitFirst sep l = none ↔ sep ∉ l := by
  induction l with
  | nil => simp [splitFirst]
  | cons c cs ih =>
    by_cases hc : c = sep
    · subst hc
      simp [splitFirst]
    · cases hs : splitFirst sep cs with
      | none =>
        have hnotin : sep ∉ cs := (ih).mp hs
        simp only [splitFirst, hc, if_false, hs, true_iff, List.mem_cons,
          not_or]
        exact ⟨fun he => hc he.symm, hnotin⟩
      | some p =>
        have hin : sep ∈ cs := by
          by_contra hni
          rw [ih.mpr hni] at hs
          exact Option.noConfusion hs
        simp [splitFirst, hc, hs, List.mem_cons, hin]

/-- Lemma: `splitFirst` finds the first separator. -/
theorem splitFirst_append (sep : Char) (a b : List Char) (ha : sep ∉ a) :
    splitFirst sep (a ++ sep :: b) = some (a, b) := by
  induction a with
  | nil => simp [splitFirst]
  | cons c cs ih =>
    have hc : ¬ c = sep := by
      intro he
      exact ha (he ▸ List.mem_cons_self c cs)
    have hcs : sep ∉ cs := fun h => ha (List.mem_cons_of_mem c h)
    show splitFirst sep (c :: (cs ++ sep :: b)) = some (c :: cs, b)
    simp only [splitFirst, hc, if_false]
    rw [ih hcs]

/-- What a successful `splitFirst` says about its input. -/
theorem splitFirst_eq_some (sep : Char) :
    ∀ (l a b : List Char), splitFirst sep l = some (a, b) →
      l = a ++ sep :: b ∧ sep ∉ a := by
  intro l
  induction l with
  | nil =>
    intro a b h
    exact Option.noConfusion h
  | cons c cs ih =>
    intro a b h
    by_cases hc : c = sep
    · subst hc
      simp only [splitFirst, if_pos rfl, Option.some.injEq, Prod.mk.injEq]
        at h
      obtain ⟨rfl, rfl⟩ := h
      simp
    · simp only [splitFirst, hc, if_false] at h
      cases hs : splitFirst sep cs with
      | none =>
        rw [hs] at h
        exact Option.noConfusion h
      | some p =>
        obtain ⟨a1, b1⟩ := p
        rw [hs] at h
        simp only [Option.some.injEq, Prod.mk.injEq] at h
        obtain ⟨rfl, rfl⟩ := h
        obtain ⟨hcs, hni⟩ := ih a1 b1 hs
        constructor
        · rw [hcs]
          rfl
        · intro hm
          rcases List.mem_cons.mp hm with he | hm2
          · exact hc he.symm
          · exact hni hm2

/-- C5: `split_file_id` fails with `InvalidFileId` exactly for the empty
string, strings without a slash, and strings whose part before the
first slash is empty or longer than 16 bytes or whose part after it is
empty; it succeeds on `a ++ "/" ++ b` for slash-free non-empty `a` of
at most 16 bytes and non-empty `b`, returning `(a, b)`; and
`join_file_id` reproduces every successfully split ID. -/
theorem splitFileId_spec :
    (∀ s : String, splitFileId s = .error (.invalidFileId s) ↔
      (s.data = [] ∨ '/' ∉ s.data ∨
        ∃ a b : List Char, s.data = a ++ '/' :: b ∧ '/' ∉ a ∧
          (a = [] ∨ 16 < (listBytes a).length ∨ b = []))) ∧
    (∀ a b : String, '/' ∉ a.data → a.data ≠ [] →
      (strBytes a).length ≤ 16 → b.data ≠ [] →
      splitFileId (a ++ ("/") ++ b) = .ok (a, b)) ∧
    (∀ s g r : String, splitFileId s = .ok (g, r) → joinFileId g r = s) := by
  have hdata_empty : ∀ s : String, s = ("") ↔ s.data = [] := by
    intro s
    exact ⟨fun h => congrArg String.data h, fun h => String.ext h⟩
  refine ⟨?_, ?_, ?_⟩
  · intro s
    unfold splitFileId
    by_cases hse : s = ("")
    · rw [if_pos hse]
      exact iff_of_true rfl (Or.inl ((hdata_empty s).mp hse))
    · rw [if_neg hse]
      have hsd : ¬ s.data = [] := fun h => hse ((hdata_empty s).mpr h)
      cases hsp : splitFirst '/' s.data with
      | none =>
        have hni : '/' ∉ s.data := (splitFirst_eq_none_iff '/' s.data).mp hsp
        exact iff_of_true rfl (Or.inr (Or.inl hni))
      | some p =>
        obtain ⟨g, r⟩ := p
        dsimp only
        obtain ⟨hdec, hgni⟩ := splitFirst_eq_some '/' s.data g r hsp
        by_cases hbad : g = [] ∨ FDFS_GROUP_NAME_MAX_LEN < (listBytes g).length
        · rw [if_pos hbad]
          refine iff_of_true rfl
            (Or.inr (Or.inr ⟨g, r, hdec, hgni, ?_⟩))
          rcases hbad with h | h
          · exact Or.inl h
          · exact Or.inr (Or.inl h)
        · rw [if_neg hbad]
          by_cases hr : r = []
          · rw [if_pos hr]
            exact iff_of_true rfl
              (Or.inr (Or.inr ⟨g, r, hdec, hgni, Or.inr (Or.inr hr)⟩))
          · rw [if_neg hr]
            refine iff_of_false (fun h => Except.noConfusion h) ?_
            intro h
            rcases h with h | h | h
            · exact hsd h
            · exact h (hdec ▸ (by simp : '/' ∈ g ++ '/' :: r))
            · obtain ⟨a, b, hab, hani, hcond⟩ := h
              have heq : splitFirst '/' s.data = some (a, b) :=
                hab ▸ splitFirst_append '/' a b hani
              rw [hsp] at heq
              simp only [Option.some.injEq, Prod.mk.injEq] at heq
              obtain ⟨hag, hbr⟩ := heq
              subst hag
              subst hbr
              rcases hcond with h | h | h
              · exact hbad (Or.inl h)
              · exact hbad (Or.inr h)
              · exact hr h
  · intro a b hani hane hlen hbne
    have hdata : (a ++ ("/") ++ b).data = a.data ++ '/' :: b.data := by
      simp [String.data_append]
    have hne : ¬ (a ++ ("/") ++ b) = ("") := by
      intro h
      have h2 := congrArg String.data h
      rw [hdata] at h2
      simp at h2
    unfold splitFileId
    rw [if_neg hne, hdata, splitFirst_append '/' a.data b.data hani]
    dsimp only
    have hbad : ¬ (a.data = [] ∨
        FDFS_GROUP_NAME_MAX_LEN < (listBytes a.data).length) := by
      push_neg
      exact ⟨hane, by
        show (listBytes a.data).length ≤ 16
        exact hlen⟩
    rw [if_neg hbad, if_neg hbne]
  · intro s g r h
    unfold splitFileId at h
    by_cases hse : s = ("")
    · rw [if_pos hse] at h
      exact Except.noConfusion h
    · rw [if_neg hse] at h
      cases hsp : splitFirst '/' s.data with
      | none =>
        rw [hsp] at h
        exact Except.noConfusion h
      | some p =>
        obtain ⟨g', r'⟩ := p
        rw [hsp] at h
        dsimp only at h
        by_cases hbad : g' = [] ∨
            FDFS_GROUP_NAME_MAX_LEN < (listBytes g').length
        · rw [if_pos hbad] at h
          exact Except.noConfusion h
        · rw [if_neg hbad] at h
          by_cases hr : r' = []
          · rw [if_pos hr] at h
            exact Except.noConfusion h
          · rw [if_neg hr] at h
            simp only [Except.ok.injEq, Prod.mk.injEq] at h
            obtain ⟨hg, hrr⟩ := h
            obtain ⟨hdec, _⟩ := splitFirst_eq_some '/' s.data g' r' hsp
            apply String.ext
            rw [← hg, ← hrr]
            show ((⟨g'⟩ : String) ++ ("/") ++ (⟨r'⟩ : String)).data = s.data
            rw [hdec]
            simp [String.data_append]

/-- Witness for C5: a concrete valid file ID splits and joins back. -/
theorem splitFileId_spec_witness :
    splitFileId (("group1") ++ ("/") ++ ("M00/00/00/test.jpg")) =
      .ok (("group1"), ("M00/00/00/test.jpg")) :=
  splitFileId_spec.2.1 ("group1") ("M00/00/00/test.jpg")
    (by decide) (by decide) (by decide) (by decide)

/-- Embeds `FDFS_MAX_META_NAME_LEN` from `types.rs`. -/
def FDFS_MAX_META_NAME_LEN : Nat := 64

/-- Embeds `FDFS_MAX_META_VALUE_LEN` from `types.rs`. -/
def FDFS_MAX_META_VALUE_LEN : Nat := 256

/-- Embeds `FDFS_RECORD_SEPARATOR` from `types.rs`. -/
def FDFS_RECORD_SEPARATOR : Nat := 0x01

/-- Embeds `FDFS_FIELD_SEPARATOR` from `types.rs`. -/
def FDFS_FIELD_SEPARATOR : Nat := 0x02

/-- Embeds `encode_metadata` from `protocol.rs`.  The Rust `HashMap` is
modelled as an association list whose order stands for the map's
iteration order; keys are truncated to 64 and values to 256 bytes. -/
def encodeMetadata (metadata : List (String × String)) : List Nat :=
  if metadata = [] then []
  else
    metadata.flatMap (fun kv =>
      (strBytes kv.1).take FDFS_MAX_META_NAME_LEN ++
        FDFS_FIELD_SEPARATOR ::
          ((strBytes kv.2).take FDFS_MAX_META_VALUE_LEN ++
            [FDFS_RECORD_SEPARATOR]))

/-- Rust's `slice::split(|&b| b == sep)`: the sub-slices between
separators (`n` separators give `n + 1` pieces, empties included). -/
def splitOnByte (sep : Nat) : List Nat → List (List Nat)
  | [] => [[]]
  | b :: rest =>
    if b = sep then [] :: splitOnByte sep rest
    else
      match splitOnByte sep rest with
      | [] => [[b]]
      | p :: ps => (b :: p) :: ps

/-- Embeds `HashMap::insert` on the association-list model: replace the value
of an existing key, otherwise append. -/
def mapInsert (m : List (String × String)) (k v : String) :
    List (String × String) :=
  if m.any (fun p => p.1 == k) then
    m.map (fun p => if p.1 == k then (k, v) else p)
  else m ++ [(k, v)]

/-- One iteration of the record loop in `decode_metadata`: empty records
and records that do not split into exactly two fields are skipped. -/
def procRecord (acc : List (String × String)) (record : List Nat) :
    List (String × String) :=
  if record = [] then acc
  else
    match splitOnByte FDFS_FIELD_SEPARATOR record with
    | [k, v] => mapInsert acc (bytesToStr k) (bytesToStr v)
    | _ => acc

/-- Embeds `decode_metadata` from `protocol.rs`. -/
def decodeMetadata (data : List Nat) :
    Except FastDFSError (List (String × String)) :=
  if data = [] then .ok []
  else .ok ((splitOnByte FDFS_RECORD_SEPARATOR data).foldl procRecord [])

/-- Splitting at the first separator occurrence. -/
theorem splitOnByte_append (sep : Nat) (p rest : List Nat)
    (hp : sep ∉ p) :
    splitOnByte sep (p ++ sep :: rest) = p :: splitOnByte sep rest := by
  induction p with
  | nil => simp [splitOnByte]
  | cons b p' ih =>
    have hb : ¬ b = sep := fun he => hp (he ▸ List.mem_cons_self b p')
    have hp' : sep ∉ p' := fun h => hp (List.mem_cons_of_mem b h)
    show splitOnByte sep (b :: (p' ++ sep :: rest)) = _
    simp only [splitOnByte, hb, if_false]
    rw [ih hp']

/-- A separator-free list is a single piece. -/
theorem splitOnByte_of_not_mem (sep : Nat) (p : List Nat) (hp : sep ∉ p) :
    splitOnByte sep p = [p] := by
  induction p with
  | nil => rfl
  | cons b p' ih =>
    have hb : ¬ b = sep := fun he => hp (he ▸ List.mem_cons_self b p')
    have hp' : sep ∉ p' := fun h => hp (List.mem_cons_of_mem b h)
    simp only [splitOnByte, hb, if_false]
    rw [ih hp']

/-- Lemma: `mapInsert` of a fresh key appends. -/
theorem mapInsert_fresh (m : List (String × String)) (k v : String)
    (h : ∀ p ∈ m, p.1 ≠ k) : mapInsert m k v = m ++ [(k, v)] := by
  unfold mapInsert
  rw [if_neg]
  simp only [List.any_eq_true, beq_iff_eq, not_exists]
  intro p
  intro hcon
  exact h p hcon.1 hcon.2

/-- A well-formed record (`key <0x02> value`, both separator-free)
decodes to an insert of the decoded key and value. -/
theorem procRecord_wellFormed (acc : List (String × String))
    (kb vb : List Nat) (hk : FDFS_FIELD_SEPARATOR ∉ kb)
    (hv : FDFS_FIELD_SEPARATOR ∉ vb) :
    procRecord acc (kb ++ FDFS_FIELD_SEPARATOR :: vb) =
      mapInsert acc (bytesToStr kb) (bytesToStr vb) := by
  have hne : kb ++ FDFS_FIELD_SEPARATOR :: vb ≠ [] := by
    intro h
    have := congrArg List.length h
    simp at this
  unfold procRecord
  rw [if_neg hne, splitOnByte_append _ _ _ hk, splitOnByte_of_not_mem _ _ hv]

/-- The encoded chunk of one metadata entry, re-associated so that the
record separator is exposed. -/
theorem encode_chunk_eq (k v : String) (rest : List Nat) :
    ((strBytes k).take FDFS_MAX_META_NAME_LEN ++
        FDFS_FIELD_SEPARATOR ::
          ((strBytes v).take FDFS_MAX_META_VALUE_LEN ++
            [FDFS_RECORD_SEPARATOR])) ++ rest =
      ((strBytes k).take FDFS_MAX_META_NAME_LEN ++
        FDFS_FIELD_SEPARATOR ::
          (strBytes v).take FDFS_MAX_META_VALUE_LEN) ++
        FDFS_RECORD_SEPARATOR :: rest := by
  simp [List.append_assoc]

/-- The record fold of `decode_metadata` over a well-formed encoded
map re-inserts exactly the map's entries. -/
theorem decode_fold_encode (m : List (String × String)) :
    ∀ acc : List (String × String),
    (∀ p ∈ m,
      (strBytes p.1).length ≤ FDFS_MAX_META_NAME_LEN ∧
      (strBytes p.2).length ≤ FDFS_MAX_META_VALUE_LEN ∧
      (∀ x ∈ strBytes p.1,
        x ≠ FDFS_RECORD_SEPARATOR ∧ x ≠ FDFS_FIELD_SEPARATOR) ∧
      (∀ x ∈ strBytes p.2,
        x ≠ FDFS_RECORD_SEPARATOR ∧ x ≠ FDFS_FIELD_SEPARATOR)) →
    (m.map Prod.fst).Nodup →
    (∀ p ∈ acc, ∀ q ∈ m, p.1 ≠ q.1) →
    (splitOnByte FDFS_RECORD_SEPARATOR
      (m.flatMap (fun kv =>
        (strBytes kv.1).take FDFS_MAX_META_NAME_LEN ++
          FDFS_FIELD_SEPARATOR ::
            ((strBytes kv.2).take FDFS_MAX_META_VALUE_LEN ++
              [FDFS_RECORD_SEPARATOR])))).foldl procRecord acc = acc ++ m := by
  induction m with
  | nil =>
    intro acc _ _ _
    show (splitOnByte FDFS_RECORD_SEPARATOR []).foldl procRecord acc = _
    show (procRecord acc []) = acc ++ []
    rw [procRecord, if_pos rfl, List.append_nil]
  | cons kv m' ih =>
    intro acc hc hnd hdisj
    obtain ⟨k, v⟩ := kv
    have hck := hc (k, v) (List.mem_cons_self _ _)
    have htk : (strBytes k).take FDFS_MAX_META_NAME_LEN = strBytes k :=
      List.take_of_length_le hck.1
    have htv : (strBytes v).take FDFS_MAX_META_VALUE_LEN = strBytes v :=
      List.take_of_length_le hck.2.1
    have hflat : ((k, v) :: m').flatMap (fun kv =>
        (strBytes kv.1).take FDFS_MAX_META_NAME_LEN ++
          FDFS_FIELD_SEPARATOR ::
            ((strBytes kv.2).take FDFS_MAX_META_VALUE_LEN ++
              [FDFS_RECORD_SEPARATOR])) =
        (strBytes k ++ FDFS_FIELD_SEPARATOR :: strBytes v) ++
          FDFS_RECORD_SEPARATOR :: m'.flatMap (fun kv =>
            (strBytes kv.1).take FDFS_MAX_META_NAME_LEN ++
              FDFS_FIELD_SEPARATOR ::
                ((strBytes kv.2).take FDFS_MAX_META_VALUE_LEN ++
                  [FDFS_RECORD_SEPARATOR])) := by
      rw [List.flatMap_cons, encode_chunk_eq, htk, htv]
    rw [hflat]
    have hnotin : FDFS_RECORD_SEPARATOR ∉
        strBytes k ++ FDFS_FIELD_SEPARATOR :: strBytes v := by
      intro hmem
      rcases List.mem_append.mp hmem with h | h
      · exact (hck.2.2.1 _ h).1 rfl
      · rcases List.mem_cons.mp h with h | h
        · exact absurd h (by decide)
        · exact (hck.2.2.2 _ h).1 rfl
    rw [splitOnByte_append _ _ _ hnotin]
    rw [List.foldl_cons]
    have hstep : procRecord acc
        (strBytes k ++ FDFS_FIELD_SEPARATOR :: strBytes v) =
        acc ++ [(k, v)] := by
      have hknot : FDFS_FIELD_SEPARATOR ∉ strBytes k := by
        intro h
        exact (hck.2.2.1 _ h).2 rfl
      have hvnot : FDFS_FIELD_SEPARATOR ∉ strBytes v := by
        intro h
        exact (hck.2.2.2 _ h).2 rfl
      rw [procRecord_wellFormed acc _ _ hknot hvnot,
        bytesToStr_strBytes, bytesToStr_strBytes]
      exact mapInsert_fresh acc k v
        (fun p hp => hdisj p hp (k, v) (List.mem_cons_self _ _))
    rw [hstep]
    have hres := ih (acc ++ [(k, v)])
      (fun p hp => hc p (List.mem_cons_of_mem _ hp))
      (by
        simp only [List.map_cons, List.nodup_cons] at hnd
        exact hnd.2)
      (by
        intro p hp q hq
        rcases List.mem_append.mp hp with h | h
        · exact hdisj p h q (List.mem_cons_of_mem _ hq)
        · have hpk : p = (k, v) := by simpa using h
          subst hpk
          show k ≠ q.1
          intro he
          simp only [List.map_cons, List.nodup_cons] at hnd
          exact hnd.1 (he ▸ List.mem_map_of_mem Prod.fst hq))
    rw [hres, List.append_assoc]
    rfl

/-- C7 (amended): for every metadata map whose keys are at most 64
bytes, values at most 256 bytes, and whose keys and values contain
neither separator byte 0x01 nor 0x02, `decode_metadata` inverts
`encode_metadata`. -/
theorem encodeDecodeMetadata_spec (m : List (String × String))
    (hnd : (m.map Prod.fst).Nodup)
    (hc : ∀ p ∈ m,
      (strBytes p.1).length ≤ FDFS_MAX_META_NAME_LEN ∧
      (strBytes p.2).length ≤ FDFS_MAX_META_VALUE_LEN ∧
      (∀ x ∈ strBytes p.1,
        x ≠ FDFS_RECORD_SEPARATOR ∧ x ≠ FDFS_FIELD_SEPARATOR) ∧
      (∀ x ∈ strBytes p.2,
        x ≠ FDFS_RECORD_SEPARATOR ∧ x ≠ FDFS_FIELD_SEPARATOR)) :
    decodeMetadata (encodeMetadata m) = .ok m := by
  cases hm : m with
  | nil => rfl
  | cons kv m' =>
    subst hm
    unfold encodeMetadata
    rw [if_neg (by simp)]
    have hdata : (kv :: m').flatMap (fun kv =>
        (strBytes kv.1).take FDFS_MAX_META_NAME_LEN ++
          FDFS_FIELD_SEPARATOR ::
            ((strBytes kv.2).take FDFS_MAX_META_VALUE_LEN ++
              [FDFS_RECORD_SEPARATOR])) ≠ [] := by
      intro h
      have := congrArg List.length h
      simp [List.length_append] at this
    unfold decodeMetadata
    rw [if_neg hdata]
    rw [decode_fold_encode (kv :: m') [] hc hnd (by simp)]
    rfl

/-- Witness for C7 on a concrete two-entry map. -/
theorem encodeDecodeMetadata_spec_witness :
    decodeMetadata (encodeMetadata
        [(("author"), ("John")), (("date"), ("2025"))]) =
      .ok [(("author"), ("John")), (("date"), ("2025"))] :=
  encodeDecodeMetadata_spec _ (by decide) (by decide)

/-- C7 as literally stated is false: a key containing the record
separator byte 0x01 (here `"a\x01b"`, 3 bytes ≤ 64, value 1 byte ≤ 256)
is mangled by the round trip. -/
theorem encodeDecodeMetadata_counterexample :
    decodeMetadata (encodeMetadata [(("a\x01b"), ("v"))]) =
      .ok [(("b"), ("v"))] ∧
    ([(("b"), ("v"))] : List (String × String)) ≠ [(("a\x01b"), ("v"))] := by
  constructor
  · rfl
  · decide

/-- Lemma: `mapInsert` on a singleton with the same key overwrites. -/
theorem mapInsert_replace (k v1 v2 : String) :
    mapInsert [(k, v1)] k v2 = [(k, v2)] := by
  simp [mapInsert]

/-- C10: `decode_metadata` never fails (it returns `Ok` on every byte
sequence); a non-empty record that does not split into exactly two
fields is dropped; and a duplicated key resolves to the value of the
later record. -/
theorem decodeMetadata_total_spec :
    (∀ data : List Nat, ∃ m, decodeMetadata data = .ok m) ∧
    (∀ r rest : List Nat, r ≠ [] → FDFS_RECORD_SEPARATOR ∉ r →
      (splitOnByte FDFS_FIELD_SEPARATOR r).length ≠ 2 →
      decodeMetadata (r ++ FDFS_RECORD_SEPARATOR :: rest) =
        decodeMetadata rest) ∧
    (∀ k v1 v2 : String,
      (strBytes k).length ≤ FDFS_MAX_META_NAME_LEN →
      (strBytes v1).length ≤ FDFS_MAX_META_VALUE_LEN →
      (strBytes v2).length ≤ FDFS_MAX_META_VALUE_LEN →
      (∀ x ∈ strBytes k,
        x ≠ FDFS_RECORD_SEPARATOR ∧ x ≠ FDFS_FIELD_SEPARATOR) →
      (∀ x ∈ strBytes v1,
        x ≠ FDFS_RECORD_SEPARATOR ∧ x ≠ FDFS_FIELD_SEPARATOR) →
      (∀ x ∈ strBytes v2,
        x ≠ FDFS_RECORD_SEPARATOR ∧ x ≠ FDFS_FIELD_SEPARATOR) →
      decodeMetadata (encodeMetadata [(k, v1), (k, v2)]) =
        .ok [(k, v2)]) := by
  refine ⟨?_, ?_, ?_⟩
  · intro data
    unfold decodeMetadata
    by_cases h : data = []
    · rw [if_pos h]
      exact ⟨[], rfl⟩
    · rw [if_neg h]
      exact ⟨_, rfl⟩
  · intro r rest hne hni hlen
    have hdne : r ++ FDFS_RECORD_SEPARATOR :: rest ≠ [] := by
      intro h
      have := congrArg List.length h
      simp at this
    unfold decodeMetadata
    rw [if_neg hdne, splitOnByte_append _ _ _ hni, List.foldl_cons]
    have hproc : procRecord [] r = [] := by
      unfold procRecord
      rw [if_neg hne]
      cases hs : splitOnByte FDFS_FIELD_SEPARATOR r with
      | nil => rfl
      | cons x xs =>
        cases xs with
        | nil => rfl
        | cons y ys =>
          cases ys with
          | nil =>
            exfalso
            apply hlen
            rw [hs]
            rfl
          | cons z zs => rfl
    rw [hproc]
    by_cases hrest : rest = []
    · subst hrest
      rfl
    · rw [if_neg hrest]
  · intro k v1 v2 hk hv1 hv2 hnk hnv1 hnv2
    have htk : (strBytes k).take FDFS_MAX_META_NAME_LEN = strBytes k :=
      List.take_of_length_le hk
    have htv1 : (strBytes v1).take FDFS_MAX_META_VALUE_LEN = strBytes v1 :=
      List.take_of_length_le hv1
    have htv2 : (strBytes v2).take FDFS_MAX_META_VALUE_LEN = strBytes v2 :=
      List.take_of_length_le hv2
    have hchunk2 : (strBytes k).take FDFS_MAX_META_NAME_LEN ++
        FDFS_FIELD_SEPARATOR ::
          ((strBytes v2).take FDFS_MAX_META_VALUE_LEN ++
            [FDFS_RECORD_SEPARATOR]) =
        (strBytes k ++ FDFS_FIELD_SEPARATOR :: strBytes v2) ++
          FDFS_RECORD_SEPARATOR :: ([] : List Nat) := by
      have h := encode_chunk_eq k v2 []
      rw [List.append_nil] at h
      rw [h, htk, htv2]
    have hdata : encodeMetadata [(k, v1), (k, v2)] =
        (strBytes k ++ FDFS_FIELD_SEPARATOR :: strBytes v1) ++
          FDFS_RECORD_SEPARATOR ::
            ((strBytes k ++ FDFS_FIELD_SEPARATOR :: strBytes v2) ++
              FDFS_RECORD_SEPARATOR :: ([] : List Nat)) := by
      unfold encodeMetadata
      rw [if_neg (by simp)]
      rw [List.flatMap_cons, List.flatMap_cons, List.flatMap_nil,
        List.append_nil, ← hchunk2]
      rw [encode_chunk_eq, htk, htv1]
    have hnotin1 : FDFS_RECORD_SEPARATOR ∉
        strBytes k ++ FDFS_FIELD_SEPARATOR :: strBytes v1 := by
      intro hmem
      rcases List.mem_append.mp hmem with h | h
      · exact (hnk _ h).1 rfl
      · rcases List.mem_cons.mp h with h | h
        · exact absurd h (by decide)
        · exact (hnv1 _ h).1 rfl
    have hnotin2 : FDFS_RECORD_SEPARATOR ∉
        strBytes k ++ FDFS_FIELD_SEPARATOR :: strBytes v2 := by
      intro hmem
      rcases List.mem_append.mp hmem with h | h
      · exact (hnk _ h).1 rfl
      · rcases List.mem_cons.mp h with h | h
        · exact absurd h (by decide)
        · exact (hnv2 _ h).1 rfl
    have hkno : FDFS_FIELD_SEPARATOR ∉ strBytes k :=
      fun h => (hnk _ h).2 rfl
    have hv1no : FDFS_FIELD_SEPARATOR ∉ strBytes v1 :=
      fun h => (hnv1 _ h).2 rfl
    have hv2no : FDFS_FIELD_SEPARATOR ∉ strBytes v2 :=
      fun h => (hnv2 _ h).2 rfl
    have hdne : encodeMetadata [(k, v1), (k, v2)] ≠ [] := by
      rw [hdata]
      intro h
      have := congrArg List.length h
      simp at this
    unfold decodeMetadata
    rw [if_neg hdne, hdata, splitOnByte_append _ _ _ hnotin1,
      splitOnByte_append _ _ _ hnotin2]
    rw [List.foldl_cons, List.foldl_cons]
    rw [procRecord_wellFormed [] _ _ hkno hv1no, bytesToStr_strBytes,
      bytesToStr_strBytes,
      mapInsert_fresh [] k v1 (fun p hp => absurd hp (List.not_mem_nil p)),
      List.nil_append]
    rw [procRecord_wellFormed [(k, v1)] _ _ hkno hv2no,
      bytesToStr_strBytes, bytesToStr_strBytes, mapInsert_replace]
    rfl

/-- Witness for C10: a one-field record is dropped, and a duplicated
key takes the later value, at concrete inputs. -/
theorem decodeMetadata_total_spec_witness :
    decodeMetadata ([97] ++ FDFS_RECORD_SEPARATOR :: []) =
      decodeMetadata [] ∧
    decodeMetadata (encodeMetadata [(("a"), ("x")), (("a"), ("y"))]) =
      .ok [(("a"), ("y"))] := by
  constructor
  · exact decodeMetadata_total_spec.2.1 [97] []
      (by decide) (by decide) (by decide)
  · exact decodeMetadata_total_spec.2.2 ("a") ("x") ("y")
      (by decide) (by decide) (by decide) (by decide) (by decide)
      (by decide)

/-- Embeds `FDFS_FILE_EXT_NAME_MAX_LEN` from `types.rs`. -/
def FDFS_FILE_EXT_NAME_MAX_LEN : Nat := 6

/-- Splitting a character list on a separator, like `splitOnByte`. -/
def splitOnChar (sep : Char) : List Char → List (List Char)
  | [] => [[]]
  | c :: rest =>
    if c = sep then [] :: splitOnChar sep rest
    else
      match splitOnChar sep rest with
      | [] => [[c]]
      | p :: ps => (c :: p) :: ps

/-- Embeds `Path::file_name` (Unix): the last path component, skipping empty
and `.` components, and `None` when that component is `..` (or the
path has no normal component). -/
def rustFileName (s : String) : Option (List Char) :=
  let comps := (splitOnChar '/' s.data).filter
    (fun c => ¬ (c = [] ∨ c = ['.']))
  match comps.getLast? with
  | none => none
  | some last => if last = ['.', '.'] then none else some last

/-- Split a character list at the LAST occurrence of `sep`
(`str::rfind` based splitting used by `Path::extension`). -/
def rsplitOnce (sep : Char) (l : List Char) :
    Option (List Char × List Char) :=
  match splitFirst sep l.reverse with
  | none => none
  | some (a, b) => some (b.reverse, a.reverse)

/-- Embeds `Path::extension`: the part of the file name after the last dot,
`none` when there is no dot or the last dot is the leading character
(hidden files like `.hidden` have no extension). -/
def rustExtension (name : List Char) : Option (List Char) :=
  match rsplitOnce '.' name with
  | none => none
  | some (before, after) => if before = [] then none else some after

/-- The `ext` string in `get_file_ext_name` before truncation:
`path.extension().and_then(|s| s.to_str()).unwrap_or("")`. -/
def extRaw (filename : String) : List Char :=
  ((rustFileName filename).bind rustExtension).getD []

/-- Rust `&ext[..n]`: the first `n` BYTES of a string, `none` modelling
the panic when `n` is not a character boundary (or exceeds the
length). -/
def takeBytes (n : Nat) : List Char → Option (List Char)
  | [] => if n = 0 then some [] else none
  | c :: cs =>
    if n = 0 then some []
    else if (utf8Bytes c).length ≤ n then
      (takeBytes (n - (utf8Bytes c).length) cs).map (fun l => c :: l)
    else none

/-- Embeds `get_file_ext_name` from `protocol.rs`; `none` models a panic in
the `ext[..FDFS_FILE_EXT_NAME_MAX_LEN]` byte slice. -/
def getFileExtName (filename : String) : Option String :=
  if FDFS_FILE_EXT_NAME_MAX_LEN < (listBytes (extRaw filename)).length then
    (takeBytes FDFS_FILE_EXT_NAME_MAX_LEN (extRaw filename)).map
      (fun l => (⟨l⟩ : String))
  else some ⟨extRaw filename⟩

/-- A successful byte slice has exactly the requested byte length. -/
theorem takeBytes_length : ∀ (l : List Char) (n : Nat) (t : List Char),
    takeBytes n l = some t → (listBytes t).length = n := by
  intro l
  induction l with
  | nil =>
    intro n t h
    unfold takeBytes at h
    by_cases hn : n = 0
    · rw [if_pos hn] at h
      simp only [Option.some.injEq] at h
      subst h
      simp [listBytes, hn]
    · rw [if_neg hn] at h
      exact Option.noConfusion h
  | cons c cs ih =>
    intro n t h
    unfold takeBytes at h
    by_cases hn : n = 0
    · rw [if_pos hn] at h
      simp only [Option.some.injEq] at h
      subst h
      simp [listBytes, hn]
    · rw [if_neg hn] at h
      by_cases hc : (utf8Bytes c).length ≤ n
      · rw [if_pos hc] at h
        simp only [Option.map_eq_some'] at h
        obtain ⟨t', ht', rfl⟩ := h
        have := ih (n - (utf8Bytes c).length) t' ht'
        have hlb : listBytes (c :: t') = utf8Bytes c ++ listBytes t' := by
          simp [listBytes]
        rw [hlb, List.length_append, this]
        omega
      · rw [if_neg hc] at h
        exact Option.noConfusion h

/-- C8 on the code as written: `get_file_ext_name(".hidden")` returns
`""` (the repo's own test expects `"hidden"`), the multi-byte input
`"f.aaaaaé"` panics in the byte slice `ext[..6]`, and whenever the
function does return, its result is at most 6 bytes. -/
theorem getFileExtName_behavior :
    getFileExtName (".hidden") = some ("") ∧
    getFileExtName ("f.aaaaaé") = none ∧
    (∀ s e : String, getFileExtName s = some e →
      (strBytes e).length ≤ FDFS_FILE_EXT_NAME_MAX_LEN) := by
  refine ⟨rfl, rfl, ?_⟩
  intro s e h
  unfold getFileExtName at h
  by_cases hlt : FDFS_FILE_EXT_NAME_MAX_LEN <
      (listBytes (extRaw s)).length
  · rw [if_pos hlt] at h
    simp only [Option.map_eq_some'] at h
    obtain ⟨t, ht, rfl⟩ := h
    have := takeBytes_length (extRaw s) FDFS_FILE_EXT_NAME_MAX_LEN t ht
    show (listBytes t).length ≤ FDFS_FILE_EXT_NAME_MAX_LEN
    omega
  · rw [if_neg hlt] at h
    simp only [Option.some.injEq] at h
    subst h
    show (listBytes (extRaw s)).length ≤ FDFS_FILE_EXT_NAME_MAX_LEN
    omega

/-- Witness for C8 at concrete inputs. -/
theorem getFileExtName_behavior_witness :
    getFileExtName (".hidden") = some ("") ∧
    (strBytes ("jpg")).length ≤ FDFS_FILE_EXT_NAME_MAX_LEN :=
  ⟨getFileExtName_behavior.1,
    getFileExtName_behavior.2.2 ("a.jpg") ("jpg") rfl⟩

/-- The retry loop shared by `upload_buffer`, `download_file` and
`delete_file` in `operations.rs` (`for attempt in 0..retry_count`),
parameterised over the outcome of each internal attempt.  Returns the
final result, the list of sleep durations in seconds in the order
slept, and the list of attempt indices actually run.  `fallbackMsg` is
the `InvalidArgument` message after the loop, reachable only when
`retry_count = 0`. -/
def retryFrom (fallbackMsg : String) (retryCount : Nat)
    (attempt : Nat → Except FastDFSError α) (i : Nat) :
    Except FastDFSError α × List Nat × List Nat :=
  if _h : i < retryCount then
    match attempt i with
    | .ok a => (.ok a, [], [i])
    | .error e =>
      if i = retryCount - 1 then (.error e, [], [i])
      else
        let r := retryFrom fallbackMsg retryCount attempt (i + 1)
        (r.1, (i + 1) :: r.2.1, i :: r.2.2)
  else (.error (.invalidArgument fallbackMsg), [], [])
termination_by retryCount - i

/-- Embeds `upload_buffer` from `operations.rs`, as its retry loop over the
outcomes of `upload_buffer_internal`. -/
def uploadBuffer (retryCount : Nat)
    (attempt : Nat → Except FastDFSError String) :
    Except FastDFSError String × List Nat × List Nat :=
  retryFrom ("Upload failed after retries") retryCount attempt 0

/-- Embeds `download_file` from `operations.rs`, as its retry loop over the
outcomes of `download_file_internal`. -/
def downloadFile (retryCount : Nat)
    (attempt : Nat → Except FastDFSError (List Nat)) :
    Except FastDFSError (List Nat) × List Nat × List Nat :=
  retryFrom ("Download failed after retries") retryCount attempt 0

/-- Embeds `delete_file` from `operations.rs`, as its retry loop over the
outcomes of `delete_file_internal`. -/
def deleteFile (retryCount : Nat)
    (attempt : Nat → Except FastDFSError Unit) :
    Except FastDFSError Unit × List Nat × List Nat :=
  retryFrom ("Delete failed after retries") retryCount attempt 0

/-- The loop runs at most `retryCount - i` attempts from index `i`. -/
theorem retryFrom_calls_le {α : Type} (msg : String) (rc : Nat)
    (attempt : Nat → Except FastDFSError α) :
    ∀ i, (retryFrom msg rc attempt i).2.2.length ≤ rc - i := by
  suffices H : ∀ d i, d = rc - i →
      (retryFrom msg rc attempt i).2.2.length ≤ rc - i by
    intro i
    exact H (rc - i) i rfl
  intro d
  induction d with
  | zero =>
    intro i hd
    rw [retryFrom, dif_neg (by omega)]
    simp [← hd]
  | succ d ih =>
    intro i hd
    rw [retryFrom, dif_pos (by omega)]
    cases attempt i with
    | ok a =>
      show ([i] : List Nat).length ≤ rc - i
      simp
      omega
    | error e =>
      dsimp only
      by_cases hlast : i = rc - 1
      · rw [if_pos hlast]
        show ([i] : List Nat).length ≤ rc - i
        simp
        omega
      · rw [if_neg hlast]
        show ((retryFrom msg rc attempt (i + 1)).2.2.length + 1 ≤ rc - i)
        have := ih (i + 1) (by omega)
        omega

/-- When every attempt from `i` on fails, the loop runs attempts
`i, …, rc-1`, sleeps `i+1, …, rc-1` seconds in order, and returns the
final attempt's error. -/
theorem retryFrom_all_fail {α : Type} (msg : String) (rc : Nat)
    (attempt : Nat → Except FastDFSError α) :
    ∀ i, i < rc → (∀ j, i ≤ j → j < rc → ∃ e, attempt j = .error e) →
    retryFrom msg rc attempt i =
      (attempt (rc - 1), List.range' (i + 1) (rc - 1 - i),
        List.range' i (rc - i)) := by
  suffices H : ∀ d i, d = rc - i → i < rc →
      (∀ j, i ≤ j → j < rc → ∃ e, attempt j = .error e) →
      retryFrom msg rc attempt i =
        (attempt (rc - 1), List.range' (i + 1) (rc - 1 - i),
          List.range' i (rc - i)) by
    intro i hi hf
    exact H (rc - i) i rfl hi hf
  intro d
  induction d with
  | zero =>
    intro i hd hi _
    omega
  | succ d ih =>
    intro i hd hi hf
    rw [retryFrom, dif_pos hi]
    obtain ⟨e, he⟩ := hf i (Nat.le_refl i) hi
    rw [he]
    dsimp only
    by_cases hlast : i = rc - 1
    · rw [if_pos hlast]
      have h1 : rc - 1 - i = 0 := by omega
      have h2 : rc - i = 1 := by omega
      rw [h1, h2, ← hlast, he]
      rfl
    · rw [if_neg hlast]
      have hi1 : i + 1 < rc := by omega
      rw [ih (i + 1) (by omega) hi1 (fun j hj1 hj2 => hf j (by omega) hj2)]
      have h1 : rc - 1 - i = (rc - 1 - (i + 1)) + 1 := by omega
      have h2 : rc - i = (rc - (i + 1)) + 1 := by omega
      rw [h1, h2, List.range'_succ, List.range'_succ]

/-- When attempt `j` is the first success from `i`, the loop runs
attempts `i, …, j`, sleeps `i+1, …, j` seconds, and returns the
success. -/
theorem retryFrom_first_ok {α : Type} (msg : String) (rc : Nat)
    (attempt : Nat → Except FastDFSError α) :
    ∀ i j a, i ≤ j → j < rc → attempt j = .ok a →
    (∀ l, i ≤ l → l < j → ∃ e, attempt l = .error e) →
    retryFrom msg rc attempt i =
      (.ok a, List.range' (i + 1) (j - i), List.range' i (j - i + 1)) := by
  suffices H : ∀ d i j a, d = j - i → i ≤ j → j < rc →
      attempt j = .ok a →
      (∀ l, i ≤ l → l < j → ∃ e, attempt l = .error e) →
      retryFrom msg rc attempt i =
        (.ok a, List.range' (i + 1) (j - i), List.range' i (j - i + 1)) by
    intro i j a hij hj hok hf
    exact H (j - i) i j a rfl hij hj hok hf
  intro d
  induction d with
  | zero =>
    intro i j a hd hij hj hok _
    have hji : j = i := by omega
    subst hji
    rw [retryFrom, dif_pos hj, hok]
    have h0 : j - j = 0 := by omega
    rw [h0]
    rfl
  | succ d ih =>
    intro i j a hd hij hj hok hf
    have hij' : i < j := by omega
    rw [retryFrom, dif_pos (by omega)]
    obtain ⟨e, he⟩ := hf i (Nat.le_refl i) hij'
    rw [he]
    dsimp only
    have hlast : ¬ i = rc - 1 := by omega
    rw [if_neg hlast]
    rw [ih (i + 1) j a (by omega) (by omega) hj hok
      (fun l hl1 hl2 => hf l (by omega) hl2)]
    have h1 : j - i = (j - (i + 1)) + 1 := by omega
    rw [h1, List.range'_succ, List.range'_succ]
    dsimp only
    rw [List.range'_succ]

/-- C3: for upload, download and delete, the retry loop runs at most
`retry_count` attempts; when every attempt fails (whatever the
errors), all `retry_count` attempts run, the loop sleeps `k` seconds
after the `k`-th failed attempt (`[1, …, rc-1]` in order), and the
final attempt's error is returned; when attempt `j` is the first
success, attempts `0, …, j` run with sleeps `[1, …, j]` and the success
is returned. -/
theorem retry_spec :
    (∀ (rc : Nat) (att : Nat → Except FastDFSError String),
      (uploadBuffer rc att).2.2.length ≤ rc ∧
      (1 ≤ rc → (∀ j, j < rc → ∃ e, att j = .error e) →
        uploadBuffer rc att =
          (att (rc - 1), List.range' 1 (rc - 1), List.range' 0 rc)) ∧
      (∀ j a, j < rc → att j = .ok a →
        (∀ l, l < j → ∃ e, att l = .error e) →
        uploadBuffer rc att =
          (.ok a, List.range' 1 j, List.range' 0 (j + 1)))) ∧
    (∀ (rc : Nat) (att : Nat → Except FastDFSError (List Nat)),
      (downloadFile rc att).2.2.length ≤ rc ∧
      (1 ≤ rc → (∀ j, j < rc → ∃ e, att j = .error e) →
        downloadFile rc att =
          (att (rc - 1), List.range' 1 (rc - 1), List.range' 0 rc)) ∧
      (∀ j a, j < rc → att j = .ok a →
        (∀ l, l < j → ∃ e, att l = .error e) →
        downloadFile rc att =
          (.ok a, List.range' 1 j, List.range' 0 (j + 1)))) ∧
    (∀ (rc : Nat) (att : Nat → Except FastDFSError Unit),
      (deleteFile rc att).2.2.length ≤ rc ∧
      (1 ≤ rc → (∀ j, j < rc → ∃ e, att j = .error e) →
        deleteFile rc att =
          (att (rc - 1), List.range' 1 (rc - 1), List.range' 0 rc)) ∧
      (∀ j a, j < rc → att j = .ok a →
        (∀ l, l < j → ∃ e, att l = .error e) →
        deleteFile rc att =
          (.ok a, List.range' 1 j, List.range' 0 (j + 1)))) := by
  have hgen : ∀ {α : Type} (msg : String) (rc : Nat)
      (att : Nat → Except FastDFSError α),
      (retryFrom msg rc att 0).2.2.length ≤ rc ∧
      (1 ≤ rc → (∀ j, j < rc → ∃ e, att j = .error e) →
        retryFrom msg rc att 0 =
          (att (rc - 1), List.range' 1 (rc - 1), List.range' 0 rc)) ∧
      (∀ j a, j < rc → att j = .ok a →
        (∀ l, l < j → ∃ e, att l = .error e) →
        retryFrom msg rc att 0 =
          (.ok a, List.range' 1 j, List.range' 0 (j + 1))) := by
    intro α msg rc att
    refine ⟨?_, ?_, ?_⟩
    · have := retryFrom_calls_le msg rc att 0
      omega
    · intro hrc hf
      have := retryFrom_all_fail msg rc att 0 (by omega)
        (fun j _ hj => hf j hj)
      simpa using this
    · intro j a hj hok hf
      have := retryFrom_first_ok msg rc att 0 j a (Nat.zero_le j) hj hok
        (fun l _ hl => hf l hl)
      simpa using this
  exact ⟨fun rc att => hgen _ rc att, fun rc att => hgen _ rc att,
    fun rc att => hgen _ rc att⟩

/-- An attempt function that always fails with a network timeout. -/
def alwaysTimeoutAttempt : Nat → Except FastDFSError String :=
  fun _ => .error (.networkTimeout ("read"))

/-- Witness for C3: two failing attempts with `retry_count = 2` sleep
one second once and return the second attempt's error. -/
theorem retry_spec_witness :
    uploadBuffer 2 alwaysTimeoutAttempt =
      (.error (.networkTimeout ("read")), [1], [0, 1]) := by
  have h := (retry_spec.1 2 alwaysTimeoutAttempt).2.1 (by omega)
    (fun j _ => ⟨.networkTimeout ("read"), rfl⟩)
  rw [h]
  rfl

/-- A pooled TCP connection (`Connection` in `connection.rs`): the
stream itself lies outside the model; `lastUsed` is the `Instant` as an
abstract tick. -/
structure Conn where
  addr : String
  lastUsed : Nat
deriving DecidableEq, Repr

/-- The `ConnectionPool` state from `connection.rs`.  The `HashMap` of
per-address free-lists is an association list, and `Instant::now()`
becomes an explicit `now` argument of each operation. -/
structure PoolState where
  addrs : List String
  maxConns : Nat
  idleTimeout : Nat
  pools : List (String × List Conn)
  closed : Bool
deriving DecidableEq, Repr

/-- Embeds `HashMap::get` on the free-list table. -/
def poolsLookup (ps : List (String × List Conn)) (a : String) :
    Option (List Conn) :=
  (ps.find? (fun p => p.1 == a)).map Prod.snd

/-- Replacing the free-list of an existing address. -/
def poolsSet (ps : List (String × List Conn)) (a : String)
    (l : List Conn) : List (String × List Conn) :=
  ps.map (fun p => if p.1 == a then (a, l) else p)

/-- The `while let Some(conn) = pool.pop()` loop of
`ConnectionPool::get`: pop (LIFO, from the end of the `Vec`) until a
connection fresher than the idle timeout appears; stale ones are
dropped.  Returns the fresh connection and the remaining free-list, or
`none` when the list is exhausted. -/
def popFresh (idle now : Nat) (l : List Conn) :
    Option (Conn × List Conn) :=
  match _hl : l.getLast? with
  | none => none
  | some c =>
    if now - c.lastUsed < idle then some (c, l.dropLast)
    else popFresh idle now l.dropLast
termination_by l.length
decreasing_by
  have hne : l ≠ [] := by
    intro he
    subst he
    simp at _hl
  have hpos : 0 < l.length := List.length_pos.mpr hne
  simp only [List.length_dropLast]
  omega

/-- Embeds `ConnectionPool::get` from `connection.rs`.  `connectResult` stands
for the outcome `create_connection` would have (it is only reached when
no pooled connection is fresh); the returned `Bool` records whether
`create_connection` was invoked, i.e. whether any TCP connection was
opened. -/
def poolGet (s : PoolState) (addrOpt : Option String) (now : Nat)
    (connectResult : Except FastDFSError Conn) :
    Except FastDFSError Conn × PoolState × Bool :=
  if s.closed then (.error (.clientClosed), s, false)
  else
    match addrOpt with
    | none =>
      match s.addrs with
      | [] => (.error (.invalidArgument ("No addresses available")), s,
          false)
      | a :: _ => poolGetAt s a now connectResult
    | some a => poolGetAt s a now connectResult
where
  /-- The body of `get` after the address is fixed. -/
  poolGetAt (s : PoolState) (a : String) (now : Nat)
      (connectResult : Except FastDFSError Conn) :
      Except FastDFSError Conn × PoolState × Bool :=
    let pools1 := if (poolsLookup s.pools a).isSome then s.pools
      else s.pools ++ [(a, [])]
    let freeList := (poolsLookup pools1 a).getD []
    match popFresh s.idleTimeout now freeList with
    | some (c, rest) =>
      (.ok c, { s with pools := poolsSet pools1 a rest }, false)
    | none => (connectResult, { s with pools := poolsSet pools1 a [] },
        true)

/-- Embeds `ConnectionPool::put` from `connection.rs`: a no-op when closed;
otherwise the connection is kept only if its address has a pool that is
not full and the connection is not over the idle timeout, after which
`clean_pool` retains only fresh connections. -/
def poolPut (s : PoolState) (c : Conn) (now : Nat) : PoolState :=
  if s.closed then s
  else
    match poolsLookup s.pools c.addr with
    | none => s
    | some l =>
      if s.maxConns ≤ l.length then s
      else if s.idleTimeout < now - c.lastUsed then s
      else
        let kept := (l ++ [c]).filter
          (fun x => now - x.lastUsed ≤ s.idleTimeout)
        { s with pools := poolsSet s.pools c.addr kept }

/-- Embeds `ConnectionPool::close` from `connection.rs`: idempotent; sets the
closed flag and clears every free-list. -/
def poolClose (s : PoolState) : PoolState :=
  if s.closed then s
  else { s with closed := true, pools := [] }

/-- Embeds `ConnectionPool::add_addr` from `connection.rs`. -/
def poolAddAddr (s : PoolState) (a : String) : PoolState :=
  if s.closed then s
  else if (poolsLookup s.pools a).isSome then s
  else { s with pools := s.pools ++ [(a, [])] }

/-- C9: `close` sets the closed flag and (on a live pool) empties all
free-lists; on any closed pool every `get` returns `ClientClosed`
without opening a connection and leaves the state unchanged, every
`put` and `add_addr` is a no-op, and `close` is idempotent. -/
theorem poolClose_spec :
    (∀ s : PoolState, (poolClose s).closed = true) ∧
    (∀ s : PoolState, s.closed = false → (poolClose s).pools = []) ∧
    (∀ (s : PoolState) (a : Option String) (now : Nat)
        (cr : Except FastDFSError Conn),
      poolGet (poolClose s) a now cr =
        (.error (.clientClosed), poolClose s, false)) ∧
    (∀ (s : PoolState) (c : Conn) (now : Nat),
      poolPut (poolClose s) c now = poolClose s) ∧
    (∀ (s : PoolState) (a : String),
      poolAddAddr (poolClose s) a = poolClose s) ∧
    (∀ s : PoolState, poolClose (poolClose s) = poolClose s) := by
  have hclosed : ∀ s : PoolState, (poolClose s).closed = true := by
    intro s
    unfold poolClose
    by_cases h : s.closed
    · rw [if_pos h]
      exact h
    · rw [if_neg h]
  refine ⟨hclosed, ?_, ?_, ?_, ?_, ?_⟩
  · intro s h
    unfold poolClose
    rw [if_neg (by rw [h]; exact Bool.false_ne_true)]
  · intro s a now cr
    unfold poolGet
    rw [if_pos (hclosed s)]
  · intro s c now
    unfold poolPut
    rw [if_pos (hclosed s)]
  · intro s a
    unfold poolAddAddr
    rw [if_pos (hclosed s)]
  · intro s
    by_cases h : s.closed
    · have h1 : poolClose s = s := by
        unfold poolClose
        rw [if_pos h]
      rw [h1, h1]
    · have h1 : poolClose s = { s with closed := true, pools := [] } := by
        unfold poolClose
        rw [if_neg h]
      rw [h1]
      unfold poolClose
      rw [if_pos rfl]

/-- Witness for C9 at a concrete live pool holding one connection. -/
theorem poolClose_spec_witness :
    (poolClose ⟨[("t:1")], 10, 1000,
      [(("t:1"), [⟨("t:1"), 5⟩])], false⟩).pools = [] :=
  poolClose_spec.2.1 ⟨[("t:1")], 10, 1000,
    [(("t:1"), [⟨("t:1"), 5⟩])], false⟩ rfl

/-- Embeds `FileInfo` from `types.rs` (`create_time` as a Unix tick). -/
structure FileInfo where
  fileSize : Nat
  createTime : Nat
  crc32 : Nat
  sourceIpAddr : String
deriving DecidableEq, Repr

/-- The `Client` state from `client.rs`. -/
structure ClientState where
  closed : Bool
  trackerPool : PoolState
  storagePool : PoolState
deriving DecidableEq, Repr

/-- Embeds `Client::check_closed`. -/
def checkClosed (closed : Bool) : Except FastDFSError Unit :=
  if closed then .error (.clientClosed) else .ok ()

/-- The shared shape of every guarded public method of `Client`:
`self.check_closed().await?; self.ops.<op>(…).await`.  `op` stands for
the delegated operations-engine call, returning its result together
with the number of TCP connections it opened; a failed guard performs
no network activity (count 0). -/
def guardedOp {α : Type} (closed : Bool)
    (op : Unit → Except FastDFSError α × Nat) :
    Except FastDFSError α × Nat :=
  match checkClosed closed with
  | .error e => (.error e, 0)
  | .ok _ => op ()

/-- Embeds `Client::upload_file` (also covering `upload_buffer` and the
appender variants, which have the identical guard). -/
def clientUploadFile (closed : Bool)
    (op : Unit → Except FastDFSError String × Nat) :
    Except FastDFSError String × Nat :=
  guardedOp closed op

/-- Embeds `Client::download_file` (also `download_file_range`,
`download_to_file`). -/
def clientDownloadFile (closed : Bool)
    (op : Unit → Except FastDFSError (List Nat) × Nat) :
    Except FastDFSError (List Nat) × Nat :=
  guardedOp closed op

/-- Embeds `Client::delete_file`. -/
def clientDeleteFile (closed : Bool)
    (op : Unit → Except FastDFSError Unit × Nat) :
    Except FastDFSError Unit × Nat :=
  guardedOp closed op

/-- Embeds `Client::set_metadata`. -/
def clientSetMetadata (closed : Bool)
    (op : Unit → Except FastDFSError Unit × Nat) :
    Except FastDFSError Unit × Nat :=
  guardedOp closed op

/-- Embeds `Client::get_metadata`. -/
def clientGetMetadata (closed : Bool)
    (op : Unit → Except FastDFSError (List (String × String)) × Nat) :
    Except FastDFSError (List (String × String)) × Nat :=
  guardedOp closed op

/-- Embeds `Client::get_file_info`. -/
def clientGetFileInfo (closed : Bool)
    (op : Unit → Except FastDFSError FileInfo × Nat) :
    Except FastDFSError FileInfo × Nat :=
  guardedOp closed op

/-- Embeds `Client::file_exists`:
`check_closed().await.is_ok() && get_file_info(…).await.is_ok()`.  It
returns a `Bool`, short-circuiting on a closed client. -/
def clientFileExists (closed : Bool)
    (getFileInfoOp : Unit → Except FastDFSError FileInfo × Nat) :
    Bool × Nat :=
  match checkClosed closed with
  | .error _ => (false, 0)
  | .ok _ =>
    let r := getFileInfoOp ()
    (r.1.isOk, r.2)

/-- Embeds `Client::close` from `client.rs`: idempotent; sets the flag, then
closes both pools. -/
def clientClose (s : ClientState) : ClientState :=
  if s.closed then s
  else { closed := true, trackerPool := poolClose s.trackerPool,
         storagePool := poolClose s.storagePool }

/-- C2 (amended): on a closed client every guarded public operation
(upload, download, delete, set-metadata, get-metadata, file-info)
returns `ClientClosed` with zero TCP connections opened;
`file_exists`, whose return type is `bool`, instead returns `false`
with zero connections opened; `close` sets the flag and is
idempotent. -/
theorem clientClosed_spec :
    (∀ op, clientUploadFile true op = (.error (.clientClosed), 0)) ∧
    (∀ op, clientDownloadFile true op = (.error (.clientClosed), 0)) ∧
    (∀ op, clientDeleteFile true op = (.error (.clientClosed), 0)) ∧
    (∀ op, clientSetMetadata true op = (.error (.clientClosed), 0)) ∧
    (∀ op, clientGetMetadata true op = (.error (.clientClosed), 0)) ∧
    (∀ op, clientGetFileInfo true op = (.error (.clientClosed), 0)) ∧
    (∀ op, clientFileExists true op = (false, 0)) ∧
    (∀ s : ClientState, (clientClose s).closed = true) ∧
    (∀ s : ClientState, clientClose (clientClose s) = clientClose s) := by
  have hcl : ∀ s : ClientState, (clientClose s).closed = true := by
    intro s
    unfold clientClose
    by_cases h : s.closed
    · rw [if_pos h]
      exact h
    · rw [if_neg h]
  refine ⟨fun _ => rfl, fun _ => rfl, fun _ => rfl, fun _ => rfl,
    fun _ => rfl, fun _ => rfl, fun _ => rfl, hcl, ?_⟩
  intro s
  by_cases h : s.closed
  · have h1 : clientClose s = s := by
      unfold clientClose
      rw [if_pos h]
    rw [h1, h1]
  · have h1 : clientClose s =
        { closed := true, trackerPool := poolClose s.trackerPool,
          storagePool := poolClose s.storagePool } := by
      unfold clientClose
      rw [if_neg h]
    rw [h1]
    unfold clientClose
    rw [if_pos rfl]

/-- A stand-in operations-engine call: file-info succeeds after opening
one TCP connection. -/
def constFileInfoOp : Unit → Except FastDFSError FileInfo × Nat :=
  fun _ => (.ok ⟨0, 0, 0, ("")⟩, 1)

/-- C2 as literally stated is false for `file_exists`: on a closed
client it returns the boolean `false` (with no network activity), not
a `ClientClosed` error — its return type has no error at all; on a live
client the same engine call yields `true` after one connection. -/
theorem clientClosed_counterexample :
    clientFileExists true constFileInfoOp = (false, 0) ∧
    clientFileExists false constFileInfoOp = (true, 1) :=
  ⟨rfl, rfl⟩

/-- Embeds `encode_int64` from `protocol.rs`: 8-byte big-endian encoding of a
`u64` (`n < 2^64` at every call site; the top byte is reduced mod 256
so the definition is total on `Nat`). -/
def encodeInt64 (n : Nat) : List Nat :=
  [n / 2 ^ 56 % 256, n / 2 ^ 48 % 256, n / 2 ^ 40 % 256,
    n / 2 ^ 32 % 256, n / 2 ^ 24 % 256, n / 2 ^ 16 % 256,
    n / 2 ^ 8 % 256, n % 256]

/-- Embeds `encode_header` from `protocol.rs`: 8-byte big-endian body length,
then the command byte, then the status byte. -/
def encodeHeader (length cmd status : Nat) : List Nat :=
  encodeInt64 length ++ [cmd, status]

/-- Embeds `StorageCommand::DownloadFile` from `types.rs`. -/
def StorageCommand.downloadFile : Nat := 14

/-- The request-building part of `download_file_internal` in
`operations.rs`: splits the file ID, then builds the header
(`body_len = 16 + remote_filename.len()`, command 14) and the body
(`offset (8 BE) | length (8 BE) | remote_filename`).  The group name
produced by `split_file_id` is bound but never placed in the body, just
as in the source. -/
def downloadFileRequest (fileId : String) (offset length : Nat) :
    Except FastDFSError (List Nat × List Nat) :=
  match splitFileId fileId with
  | .error e => .error e
  | .ok (_groupName, remoteFilename) =>
    let remoteFilenameBytes := strBytes remoteFilename
    let bodyLen := 16 + remoteFilenameBytes.length
    let header := encodeHeader bodyLen StorageCommand.downloadFile 0
    let body := encodeInt64 offset ++ encodeInt64 length ++
      remoteFilenameBytes
    .ok (header, body)

/-- Modelled from the spec: the Download (command 14) request body of
the spec's wire table, `offset (8 BE) | length (8 BE) | padded group
(16) | remote_filename`; absent from the code, which omits the padded
group. -/
def specDownloadBody (groupName remoteFilename : String)
    (offset length : Nat) : List Nat :=
  encodeInt64 offset ++ encodeInt64 length ++
    padString groupName FDFS_GROUP_NAME_MAX_LEN ++ strBytes remoteFilename

/-- C1 on the code as written: for the concrete download of
`group1/M00/00/00/a.jpg` at offset 0, length 0, the code's body is
`offset | length | remote_filename` — 31 bytes, with `body_length` 31 in
the header — and differs from the spec's
`offset | length | padded group (16) | remote_filename` body (47
bytes): the 16-byte padded group name is missing. -/
theorem downloadRequest_omits_group :
    downloadFileRequest ("group1/M00/00/00/a.jpg") 0 0 =
      .ok (encodeHeader 31 StorageCommand.downloadFile 0,
        encodeInt64 0 ++ encodeInt64 0 ++ strBytes ("M00/00/00/a.jpg")) ∧
    (encodeInt64 0 ++ encodeInt64 0 ++
      strBytes ("M00/00/00/a.jpg")).length = 31 ∧
    (specDownloadBody ("group1") ("M00/00/00/a.jpg") 0 0).length = 47 ∧
    encodeInt64 0 ++ encodeInt64 0 ++ strBytes ("M00/00/00/a.jpg") ≠
      specDownloadBody ("group1") ("M00/00/00/a.jpg") 0 0 := by
  refine ⟨rfl, rfl, rfl, by decide⟩

/-- Embeds `map_status_to_error` from `errors.rs`: maps a server status byte to
`none` (success) or the corresponding error. -/
def mapStatusToError (status : Nat) : Option FastDFSError :=
  match status with
  | 0 => none
  | 2 => some (.fileNotFound (""))
  | 6 => some (.fileAlreadyExists (""))
  | 22 => some (.invalidArgument (""))
  | 28 => some (.insufficientSpace)
  | _ => some (.protocol status ("Unknown error code: " ++ toString status))

end FastDFS

namespace FastDFS

/-- C4: for every status byte `s`: 0 maps to success, 2 to FileNotFound,
6 to FileAlreadyExists, 22 to InvalidArgument, 28 to InsufficientSpace,
and every other non-zero byte to a Protocol error carrying `s`. -/
theorem mapStatusToError_spec (s : Nat) (hs : s < 256) :
    (s = 0 → mapStatusToError s = none) ∧
    (s = 2 → mapStatusToError s = some (.fileNotFound (""))) ∧
    (s = 6 → mapStatusToError s = some (.fileAlreadyExists (""))) ∧
    (s = 22 → mapStatusToError s = some (.invalidArgument (""))) ∧
    (s = 28 → mapStatusToError s = some (.insufficientSpace)) ∧
    (s ≠ 0 → s ≠ 2 → s ≠ 6 → s ≠ 22 → s ≠ 28 →
      mapStatusToError s =
        some (.protocol s ("Unknown error code: " ++ toString s))) := by
  refine ⟨fun h => by subst h; rfl, fun h => by subst h; rfl,
    fun h => by subst h; rfl, fun h => by subst h; rfl,
    fun h => by subst h; rfl, ?_⟩
  intro h0 h2 h6 h22 h28
  unfold mapStatusToError
  split
  · omega
  · omega
  · omega
  · omega
  · omega
  · rfl

/-- Witness for C4 at concrete status bytes. -/
theorem mapStatusToError_spec_witness :
    mapStatusToError 28 = some (.insufficientSpace) ∧
    mapStatusToError 5 = some (.protocol 5 ("Unknown error code: 5")) := by
  refine ⟨(mapStatusToError_spec 28 (by decide)).2.2.2.2.1 rfl, ?_⟩
  have h := (mapStatusToError_spec 5 (by decide)).2.2.2.2.2
    (by decide) (by decide) (by decide) (by decide) (by decide)
  exact h

end FastDFS
